import Mathlib

/-!
Verification development for the `@bunary/http` route-matching engine and
middleware pipeline.  Strings are modelled as lists of characters; the
JavaScript regular expressions produced by `compilePath` are modelled by a
segment list together with a greedy backtracking matcher that mirrors the
shape `^ … (/([^/]+)) … (?:/([^/]+))? … /?$` of the compiled patterns.
-/

namespace Bunary

/-- Strings are modelled as lists of characters. -/
abbrev Str := List Char

/-- View of a Lean string literal in the character-list model. -/
def str (s : String) : Str := s.data

/-! ## Pattern compiler (`compilePath` in `src/router.ts`)

`compilePath` escapes the path, replaces every occurrence of `/:name` or
`/:name?` (name matching `[a-zA-Z_][a-zA-Z0-9_]*`) by a capture group, and
appends an optional trailing slash.  The compiled regex is therefore an
alternation-free sequence of literal runs and capture groups, which we
represent as a list of segments. -/

/-- One piece of a compiled route pattern: a literal run of characters, or a
parameter capture (required `/([^/]+)` or optional `(?:/([^/]+))?`). -/
inductive Seg where
  | lit (s : Str)
  | par (name : Str) (opt : Bool)
deriving DecidableEq, Repr

/-- First character of a parameter name, `[a-zA-Z_]` in the source regex. -/
def isIdentStart (c : Char) : Bool := c.isAlpha || c = '_'

/-- Subsequent characters of a parameter name, `[a-zA-Z0-9_]`. -/
def isIdentChar (c : Char) : Bool := c.isAlphanum || c = '_'

/-- Maximal run of identifier characters at the front, with the remainder. -/
def takeIdent (s : Str) : Str × Str :=
  match s with
  | [] => ([], [])
  | c :: cs =>
    if isIdentChar c then
      let p := takeIdent cs
      (c :: p.1, p.2)
    else ([], c :: cs)

/-- Whether the remainder starts with the escaped optional marker `?`. -/
def isOptQ : Str → Bool
  | '?' :: _ => true
  | _ => false

/-- Drop a leading optional marker `?` if present. -/
def dropOptQ : Str → Str
  | '?' :: r => r
  | r => r

/-- Append the accumulated (reversed) literal run as a literal segment. -/
def pushLit (acc : List Seg) (litAcc : Str) : List Seg :=
  if litAcc = [] then acc else acc ++ [Seg.lit litAcc.reverse]

/-- Scan a path pattern left to right, mirroring the global replacement of
`/:([a-zA-Z_][a-zA-Z0-9_]*)(\?)?` performed by `compilePath`: text outside a
match stays literal, each match becomes a parameter capture segment.  The
fuel only drives the recursion: every step consumes at least one input
character, so starting from `input.length + 1` it is never exhausted. -/
def scanPathF : Nat → Str → Str → List Seg → List Seg
  | _, [], litAcc, acc => pushLit acc litAcc
  | 0, _ :: _, litAcc, acc => pushLit acc litAcc
  | fuel + 1, '/' :: ':' :: c :: cs, litAcc, acc =>
      if isIdentStart c then
        scanPathF fuel (dropOptQ (takeIdent cs).2) []
          (pushLit acc litAcc ++ [Seg.par (c :: (takeIdent cs).1) (isOptQ (takeIdent cs).2)])
      else scanPathF fuel (':' :: c :: cs) ('/' :: litAcc) acc
  | fuel + 1, c :: cs, litAcc, acc => scanPathF fuel cs (c :: litAcc) acc

/-- Scan of a whole path pattern. -/
def scanPath (input : Str) : List Seg := scanPathF (input.length + 1) input [] []

/-- Parameters of a compiled segment list, with their optional flags, in order
of appearance. -/
def segParams (segs : List Seg) : List (Str × Bool) :=
  segs.filterMap (fun s =>
    match s with
    | Seg.par n o => some (n, o)
    | Seg.lit _ => none)

/-- Registration-time failures of the pattern compiler. -/
inductive CompileErr where
  | duplicateParam (name : Str)
deriving DecidableEq, Repr

/-- First name that repeats an earlier one, mirroring the duplicate check the
source performs while replacing parameters left to right. -/
def firstDupAux : List Str → List Str → Option Str
  | [], _ => none
  | n :: ns, seen => if seen.contains n then some n else firstDupAux ns (n :: seen)

/-- Result of `compilePath`: the compiled pattern, the parameter names in
order, and the subset marked optional. -/
structure Compiled where
  segs : List Seg
  paramNames : List Str
  optionalParams : List Str
deriving DecidableEq, Repr

/-- Model of `compilePath` from `src/router.ts`: compile a path pattern into a
matcher (segment list), the ordered parameter names, and the optional subset;
a duplicate parameter name is a registration-time error. -/
def compilePath (path : Str) : Except CompileErr Compiled :=
  let segs := scanPath path
  let ps := segParams segs
  match firstDupAux (ps.map Prod.fst) [] with
  | some n => .error (.duplicateParam n)
  | none =>
    .ok { segs := segs
          paramNames := ps.map Prod.fst
          optionalParams := (ps.filter (fun p => p.2)).map Prod.fst }

/-! ## The compiled matcher

The compiled regex is `^ pieces /?$`; a required parameter contributes
`/([^/]+)`, an optional one `(?:/([^/]+))?`, both greedy.  `matchSegs`
implements exactly this backtracking search: a `[^/]+` group tries the
longest capture first and gives characters back on failure, and an optional
group is tried before being skipped. -/

/-- Maximal run of non-separator characters at the front of the input: the
most a greedy `[^/]+` can consume. -/
def nonSlashRun : Str → Str
  | [] => []
  | c :: cs => if c = '/' then [] else c :: nonSlashRun cs

/-- Greedy backtracking for one `/([^/]+)` group whose separator has been
consumed: try a capture of length `k` first, then shorter ones, never empty;
`cont` matches the remaining segments against the remaining input. -/
def tryCapture (cont : Str → Option (List (Option Str))) (rest : Str) :
    Nat → Option (List (Option Str))
  | 0 => none
  | (k+1) =>
      match cont (rest.drop (k+1)) with
      | some caps => some (some (rest.take (k+1)) :: caps)
      | none => tryCapture cont rest k

/-- Match a compiled segment list against a path, anchored on both sides and
allowing one optional trailing slash, returning the capture per group
(`none` for an optional group that was skipped). -/
def matchSegs : List Seg → Str → Option (List (Option Str))
  | [], input => if input = [] ∨ input = ['/'] then some [] else none
  | Seg.lit s :: ks, input =>
      if s.isPrefixOf input then matchSegs ks (input.drop s.length) else none
  | Seg.par _ false :: ks, input =>
      match input with
      | '/' :: rest => tryCapture (matchSegs ks) rest (nonSlashRun rest).length
      | _ => none
  | Seg.par _ true :: ks, input =>
      match input with
      | '/' :: rest =>
          match tryCapture (matchSegs ks) rest (nonSlashRun rest).length with
          | some caps => some caps
          | none => (matchSegs ks ('/' :: rest)).map (fun caps => none :: caps)
      | other => (matchSegs ks other).map (fun caps => none :: caps)

/-! ## Extracted parameters

`Record<string, string | undefined>` objects in which only defined keys are
set are modelled as association lists in key-insertion order. -/

/-- Extracted parameters: an association list from names to values. -/
abbrev Params := List (Str × Str)

/-- Read a key from a record; `none` models an unset property. -/
def getKey : Params → Str → Option Str
  | [], _ => none
  | (k, v) :: ps, key => if k = key then some v else getKey ps key

/-- Set a key on a record: overwrite in place or append a new key. -/
def setKey : Params → Str → Str → Params
  | [], k, v => [(k, v)]
  | (k', v') :: ps, k, v =>
      if k' = k then (k, v) :: ps else (k', v') :: setKey ps k v

/-! ## Regular-expression constraints

Constraint rules are host `RegExp` values.  We model the regex core as a
small algebra with standard matching semantics, plus the two anchors, and
`RegExp.test` as the host does it: an unanchored pattern may match any
substring of the value. -/

/-- Regular-expression cores: empty language, empty string, one character,
concatenation, alternation, and Kleene star. -/
inductive RE where
  | fail
  | eps
  | chr (c : Char)
  | cat (a b : RE)
  | alt (a b : RE)
  | star (r : RE)
deriving DecidableEq, Repr

/-- Whether a regex core accepts the empty string. -/
def RE.nullable : RE → Bool
  | .fail => false
  | .eps => true
  | .chr _ => false
  | .cat a b => a.nullable && b.nullable
  | .alt a b => a.nullable || b.nullable
  | .star _ => true

/-- Brzozowski derivative of a regex core by one character. -/
def RE.deriv : RE → Char → RE
  | .fail, _ => .fail
  | .eps, _ => .fail
  | .chr c, a => if c = a then .eps else .fail
  | .cat a b, c =>
      if a.nullable then .alt (.cat (a.deriv c) b) (b.deriv c)
      else .cat (a.deriv c) b
  | .alt a b, c => .alt (a.deriv c) (b.deriv c)
  | .star r, c => .cat (r.deriv c) (.star r)

/-- Whether a regex core matches an entire string. -/
def matchRE (r : RE) (s : Str) : Bool := (s.foldl RE.deriv r).nullable

/-- One or more repetitions. -/
def RE.plus (r : RE) : RE := .cat r (.star r)

/-- Alternation over a finite set of characters (a character class). -/
def RE.oneOf (cs : List Char) : RE := cs.foldr (fun c acc => .alt (.chr c) acc) .fail

/-- Concatenation of single characters (a literal word). -/
def RE.word (s : Str) : RE := s.foldr (fun c acc => .cat (.chr c) acc) .eps

/-- A host `RegExp`: a core plus whether the written pattern is anchored at
the start (`^`) and at the end (`$`). -/
structure JSRegExp where
  aStart : Bool
  aEnd : Bool
  core : RE
deriving DecidableEq, Repr

/-- Host `RegExp.test` semantics: the pattern must match some substring of
the value, constrained to start at the beginning when anchored with `^` and
to finish at the end when anchored with `$`. -/
def reTest (r : JSRegExp) (s : Str) : Bool :=
  let starts : List Str := if r.aStart then [s] else s.tails
  starts.any (fun suf =>
    if r.aEnd then matchRE r.core suf
    else (List.range (suf.length + 1)).any (fun k => matchRE r.core (suf.take k)))

/-! ## Routes

A registered route entry, as built by `addRoute` in the application factory
(`src/index.ts`): the compiled pattern is kept as its segment list.  `rid`
stands in for the object identity that keys the `WeakMap` middleware cache,
and attached middleware are opaque tokens. -/

/-- A registered route entry. -/
structure Route where
  method : Str
  path : Str
  segs : List Seg
  paramNames : List Str
  optionalParams : Option (List Str) := none
  constraints : Option (List (Str × JSRegExp)) := none
  name : Option Str := none
  middleware : Option (List Nat) := none
  rid : Nat := 0
deriving DecidableEq, Repr

/-- Model of `route.pattern.test(path)`. -/
def routeTest (r : Route) (path : Str) : Bool := (matchSegs r.segs path).isSome

/-- Build the params record from the match captures: walk `paramNames` by
index and set a key only when the capture at that index exists and is not the
empty string (`extractParams` in `src/router.ts`). -/
def buildParams : List Str → List (Option Str) → Params → Params
  | [], _, ps => ps
  | _ :: ns, [], ps => buildParams ns [] ps
  | n :: ns, c :: cs, ps =>
      match c with
      | some v => if v ≠ [] then buildParams ns cs (setKey ps n v) else buildParams ns cs ps
      | none => buildParams ns cs ps

/-- Model of `extractParams` from `src/router.ts`: re-match the path against
the route pattern and collect the defined, non-empty captures. -/
def extractParams (path : Str) (r : Route) : Params :=
  match matchSegs r.segs path with
  | none => []
  | some caps => buildParams r.paramNames caps []

/-- Walk the constraint entries: a parameter missing from `params` is
skipped, a present one must pass its rule under `RegExp.test`. -/
def checkConstraintsList (params : Params) : List (Str × JSRegExp) → Bool
  | [] => true
  | (p, re) :: cs =>
      match getKey params p with
      | none => checkConstraintsList params cs
      | some v => if reTest re v then checkConstraintsList params cs else false

/-- Model of `checkConstraints` from `src/router.ts`: absent constraints
always pass; otherwise every entry is checked against the params. -/
def checkConstraints (params : Params) (constraints : Option (List (Str × JSRegExp))) : Bool :=
  match constraints with
  | none => true
  | some cs => checkConstraintsList params cs

/-! ## Route lookup (`src/routes/find.ts`) -/

/-- Model of `findRoute`: scan the registered routes in order; a route whose
pattern matches is taken when its method matches and its constraints pass on
the extracted params, otherwise the scan continues. -/
def findRoute : List Route → Str → Str → Option (Route × Params)
  | [], _, _ => none
  | r :: rs, method, path =>
      if routeTest r path then
        if r.method = method then
          let params := extractParams path r
          if checkConstraints params r.constraints then some (r, params)
          else findRoute rs method path
        else findRoute rs method path
      else findRoute rs method path

/-- The test `findRoute` applies to one candidate: structural pattern match,
method equality, and constraints passing on the extracted params. -/
def routeQualifies (method path : Str) (r : Route) : Bool :=
  routeTest r path && r.method == method
    && checkConstraints (extractParams path r) r.constraints

/-- Model of `hasMatchingPath`: some route matches structurally and passes
its constraints, regardless of method. -/
def hasMatchingPath (routes : List Route) (path : Str) : Bool :=
  routes.any (fun r =>
    if !routeTest r path then false
    else checkConstraints (extractParams path r) r.constraints)

/-- Lexicographic comparison of character lists, mirroring the default
string ordering used by `Array.prototype.sort`. -/
def strLt : Str → Str → Bool
  | [], [] => false
  | [], _ :: _ => true
  | _ :: _, [] => false
  | a :: as, b :: bs =>
      if a.val < b.val then true
      else if b.val < a.val then false
      else strLt as bs

/-- Insert into a list sorted by `strLt`. -/
def insertSorted (x : Str) : List Str → List Str
  | [] => [x]
  | y :: ys => if strLt x y then x :: y :: ys else y :: insertSorted x ys

/-- Sort strings as `Array.prototype.sort` would. -/
def sortStrs (l : List Str) : List Str := l.foldr insertSorted []

/-- Model of `getAllowedMethods`: distinct methods of matching routes whose
constraints pass, sorted for deterministic output. -/
def getAllowedMethods (routes : List Route) (path : Str) : List Str :=
  let ms := routes.foldl (fun acc r =>
    if routeTest r path && checkConstraints (extractParams path r) r.constraints then
      if acc.contains r.method then acc else acc ++ [r.method]
    else acc) []
  sortStrs ms

/-! ## Route builder constraints (`src/routes/builder.ts`) -/

/-- Model of the builder's `addConstraint`: initialise the constraint record
when absent and set the rule under the parameter name. -/
def addConstraint (r : Route) (param : Str) (rule : JSRegExp) : Route :=
  match r.constraints with
  | none => { r with constraints := some [(param, rule)] }
  | some cs => { r with constraints := some (setConstraint cs param rule) }
where
  /-- Property assignment on the constraint record. -/
  setConstraint : List (Str × JSRegExp) → Str → JSRegExp → List (Str × JSRegExp)
    | [], k, v => [(k, v)]
    | (k', v') :: cs, k, v =>
        if k' = k then (k, v) :: cs else (k', v') :: setConstraint cs k v

/-- The digits character class `\d`. -/
def digitClass : RE := RE.oneOf (str "0123456789")

/-- Rule installed by `whereNumber`: the anchored pattern `^\d+$`. -/
def whereNumberRule : JSRegExp := { aStart := true, aEnd := true, core := RE.plus digitClass }

/-! ## Path utilities (`src/pathUtils.ts`) -/

/-- Whether a path starts with the separator (`startsWith("/")`). -/
def startsWithSlash : Str → Bool
  | [] => false
  | c :: _ => c = '/'

/-- Whether a path ends with the separator (`endsWith("/")`). -/
def endsWithSlash : Str → Bool
  | [] => false
  | [c] => c = '/'
  | _ :: cs => endsWithSlash cs

/-- First normalisation step of `normalizePrefix`: ensure a leading slash. -/
def ensureLeadingSlash (p : Str) : Str :=
  if !startsWithSlash p then '/' :: p else p

/-- Second normalisation step of `normalizePrefix`: strip a trailing slash
unless the whole value is the one-character root. -/
def stripTrailingSlash (n : Str) : Str :=
  if endsWithSlash n && decide (n.length > 1) then n.dropLast else n

/-- Model of `normalizePrefix`: ensure a leading slash and strip a trailing
slash unless the whole value is the root. -/
def normalizePrefix (p : Str) : Str := stripTrailingSlash (ensureLeadingSlash p)

/-- The second component of `joinPaths`: give the path a leading slash when
it is non-empty and lacks one. -/
def normalizePathPart (path : Str) : Str :=
  if !startsWithSlash path && decide (path ≠ []) then '/' :: path else path

/-- Model of `joinPaths`: normalise the first component, give the second a
leading slash when it needs one, treat a bare `/` second component as empty,
and concatenate. -/
def joinPaths (p path : Str) : Str :=
  if normalizePathPart path = ['/'] then normalizePrefix p
  else normalizePrefix p ++ normalizePathPart path

/-! ## Group composition (`src/routes/group.ts`)

A group router carries the prefix it was created with; a nested `group`
creates a router whose prefix is `joinPaths` of the outer prefix and the
declared inner prefix, and registering a verb route joins the group prefix
with the declared sub-path. -/

/-- Effective prefix of a chain of nested groups below an outer prefix. -/
def effectivePrefix (outer : Str) : List Str → Str
  | [] => outer
  | q :: qs => effectivePrefix (joinPaths outer q) qs

/-- Full path of a route declared with `subPath` inside the group nesting
`nested` under the outermost group prefix `p`. -/
def groupRegisteredPath (p : Str) (nested : List Str) (subPath : Str) : Str :=
  joinPaths (effectivePrefix p nested) subPath

/-- Whether a path contains a double slash. -/
def hasDoubleSlash : Str → Bool
  | [] => false
  | c :: cs => (decide (c = '/') && startsWithSlash cs) || hasDoubleSlash cs

/-! ## Execution pipeline (`executeRoute` in `src/handlers/route.ts`)

`executeRoute` drives the chain through a shared cursor: `next()` takes the
middleware at the cursor, advances it, and invokes the middleware with
`next` as its continuation; past the end it invokes the route handler.  A
middleware is modelled by its observable control behaviour: `pass` performs
its before-effect, awaits its continuation once, then performs its
after-effect; `stop` performs its before-effect and returns without ever
invoking the continuation.  Events are tagged with the index of the
middleware (or the terminal handler) that produced them. -/

/-- Observable behaviour of one middleware. -/
inductive MWBeh where
  | pass
  | stop
deriving DecidableEq, Repr

/-- Observable events of one request execution. -/
inductive Ev where
  | before (i : Nat)
  | handler
  | after (i : Nat)
deriving DecidableEq, Repr

/-- Trace of running the remaining chain when the cursor stands at absolute
index `i`: the model of the `next` continuation of `executeRoute`. -/
def runAux (i : Nat) : List MWBeh → List Ev
  | [] => [Ev.handler]
  | MWBeh.pass :: rest => Ev.before i :: (runAux (i + 1) rest ++ [Ev.after i])
  | MWBeh.stop :: _ => [Ev.before i]

/-- Trace of one request through the full middleware chain and handler. -/
def runChain (mws : List MWBeh) : List Ev := runAux 0 mws

/-! ## Middleware chain cache (`createApp` in `src/index.ts`)

The application closure holds the global middleware list, a version counter,
and a `WeakMap` from routes to `(version, chain)` entries.  Middleware are
modelled as opaque tokens and the `WeakMap` as a function from the route
identity `rid`. -/

/-- The application state relevant to the middleware chain cache. -/
structure AppState where
  middlewares : List Nat
  version : Nat
  cache : Nat → Option (Nat × List Nat)

/-- The chain `getMiddlewareChain` builds on a cache miss: global middleware
followed by the route's attached middleware. -/
def chainOf (st : AppState) (r : Route) : List Nat :=
  match r.middleware with
  | some ms => st.middlewares ++ ms
  | none => if st.middlewares.length > 0 then st.middlewares else []

/-- Model of `getMiddlewareChain`: serve the cached chain only when its
stored version equals the current global version (the early return of the
source), otherwise rebuild the chain and store it stamped with the current
version. -/
def getMiddlewareChain (st : AppState) (r : Route) : List Nat × AppState :=
  match st.cache r.rid with
  | some (v, chain) =>
      if v = st.version then (chain, st)
      else
        let chain2 := chainOf st r
        (chain2, { st with
                    cache := fun id =>
                      if id = r.rid then some (st.version, chain2) else st.cache id })
  | none =>
      let chain2 := chainOf st r
      (chain2, { st with
                  cache := fun id =>
                    if id = r.rid then some (st.version, chain2) else st.cache id })

/-- Model of `use`: append the new global middleware and invalidate all
cached chains by bumping the version counter. -/
def use (st : AppState) (mw : Nat) : AppState :=
  { st with middlewares := st.middlewares ++ [mw], version := st.version + 1 }

/-- Cache coherence at one route: a cache entry carrying the current version
stores exactly the chain `getMiddlewareChain` would rebuild for that route. -/
def CoherentAt (st : AppState) (r : Route) : Prop :=
  ∀ v chain, st.cache r.rid = some (v, chain) → v = st.version → chain = chainOf st r

/-- Every stored version stamp is at most the current version counter. -/
def VersionBound (st : AppState) : Prop :=
  ∀ id v chain, st.cache id = some (v, chain) → v ≤ st.version

/-! ## URL generator (`route` in the application factory, `src/index.ts`) -/

/-- A supplied parameter value: `string | number` in the source; naturals
stand in for the numbers used with routes. -/
inductive PVal where
  | s (v : Str)
  | n (v : Nat)
deriving DecidableEq, Repr, Inhabited

/-- Model of `String(value)`. -/
def pvalStr : PVal → Str
  | .s v => v
  | .n v => (Nat.repr v).data

/-- Failures of the URL generator. -/
inductive GenErr where
  | routeNotFound
  | invalidParamValue (k : Str)
  | missingRequiredParam (k : Str)
deriving DecidableEq, Repr

/-- Characters rejected by the injection check: carriage return, line feed,
and NUL. -/
def badChar (c : Char) : Bool := c = '\r' || c = '\n' || c = Char.ofNat 0

/-- Whether a value contains an injection character. -/
def hasBadChar (s : Str) : Bool := s.any badChar

/-- Key of the first supplied parameter whose stringified value contains an
injection character, in entry order. -/
def findBad : List (Str × PVal) → Option Str
  | [] => none
  | (k, v) :: ps => if hasBadChar (pvalStr v) then some k else findBad ps

/-- The injection check applied to the optional params object: key of the
first offending entry when params were supplied. -/
def findBadOpt (params : Option (List (Str × PVal))) : Option Str :=
  match params with
  | some ps => findBad ps
  | none => none

/-- Lookup in the named-route map. -/
def lookupName : List (Str × Route) → Str → Option Route
  | [], _ => none
  | (k, r) :: rest, n => if k = n then some r else lookupName rest n

/-- Lookup of a supplied parameter (`params?.[paramName]`). -/
def lookupPV : List (Str × PVal) → Str → Option PVal
  | [], _ => none
  | (k, v) :: ps, n => if k = n then some v else lookupPV ps n

/-- Lookup through the optional params object. -/
def lookupParam (params : Option (List (Str × PVal))) (k : Str) : Option PVal :=
  match params with
  | none => none
  | some ps => lookupPV ps k

/-- Characters `encodeURIComponent` leaves unescaped. -/
def uriUnreserved (c : Char) : Bool :=
  c.isAlphanum || c = '-' || c = '_' || c = '.' || c = '!' || c = '~'
    || c = '*' || c = Char.ofNat 39 || c = '(' || c = ')'

/-- UTF-8 bytes of a character, as the host percent-encoders use them. -/
def utf8Bytes (c : Char) : List Nat :=
  let n := c.toNat
  if n < 0x80 then [n]
  else if n < 0x800 then [0xC0 + n / 0x40, 0x80 + n % 0x40]
  else if n < 0x10000 then
    [0xE0 + n / 0x1000, 0x80 + (n / 0x40) % 0x40, 0x80 + n % 0x40]
  else
    [0xF0 + n / 0x40000, 0x80 + (n / 0x1000) % 0x40,
      0x80 + (n / 0x40) % 0x40, 0x80 + n % 0x40]

/-- Uppercase hexadecimal digit. -/
def hexDigit (n : Nat) : Char :=
  if n < 10 then Char.ofNat (48 + n) else Char.ofNat (55 + n)

/-- Percent-encoding of one character from its UTF-8 bytes. -/
def pctEncodeChar (c : Char) : Str :=
  (utf8Bytes c).foldr (fun b acc => '%' :: hexDigit (b / 16) :: hexDigit (b % 16) :: acc) []

/-- One character under `encodeURIComponent`. -/
def encURIChar (c : Char) : Str :=
  if uriUnreserved c then [c] else pctEncodeChar c

/-- Model of the host `encodeURIComponent`. -/
def encodeURIComponent (s : Str) : Str :=
  s.foldr (fun c acc => encURIChar c ++ acc) []

/-- Characters `URLSearchParams` serialisation leaves unescaped. -/
def formUnreserved (c : Char) : Bool :=
  c.isAlphanum || c = '*' || c = '-' || c = '.' || c = '_'

/-- One character under `application/x-www-form-urlencoded` serialisation. -/
def formEncChar (c : Char) : Str :=
  if c = ' ' then ['+'] else if formUnreserved c then [c] else pctEncodeChar c

/-- A string under `application/x-www-form-urlencoded` serialisation. -/
def formEnc (s : Str) : Str :=
  s.foldr (fun c acc => formEncChar c ++ acc) []

/-- Replace the first occurrence of `:name`, together with a directly
following `?` if present, mirroring `url.replace(new RegExp(":name\\??"),
repl)`; the url is returned unchanged when there is no occurrence. -/
def replaceFirstColon (url : Str) (name repl : Str) : Str :=
  match url with
  | [] => []
  | c :: cs =>
      if (':' :: name).isPrefixOf (c :: cs) then
        repl ++ dropOptQ ((c :: cs).drop (name.length + 1))
      else c :: replaceFirstColon cs name repl

/-- Remove the first occurrence of the literal `/:name?`, mirroring
`url.replace(new RegExp("/:name\\?"), "")`. -/
def removeFirstOptional (url : Str) (name : Str) : Str :=
  match url with
  | [] => []
  | c :: cs =>
      if ('/' :: ':' :: (name ++ ['?'])).isPrefixOf (c :: cs) then
        (c :: cs).drop (name.length + 3)
      else c :: removeFirstOptional cs name

/-- The substitution loop of the URL generator: walk the declared parameter
names in pattern order, substituting supplied values (URL-encoded), removing
absent optional placeholders, and failing on an absent required parameter;
also returns the set of consumed keys. -/
def substLoop (params : Option (List (Str × PVal))) (optionals : List Str) :
    List Str → Str → List Str → Except GenErr (Str × List Str)
  | [], url, used => .ok (url, used)
  | pn :: rest, url, used =>
      match lookupParam params pn with
      | some v =>
          substLoop params optionals rest
            (replaceFirstColon url pn (encodeURIComponent (pvalStr v)))
            (used ++ [pn])
      | none =>
          if optionals.contains pn then
            substLoop params optionals rest (removeFirstOptional url pn) used
          else .error (.missingRequiredParam pn)

/-- Supplied entries not consumed as path parameters, stringified, in entry
order: the query-string pairs. -/
def queryEntries (params : Option (List (Str × PVal))) (used : List Str) : List (Str × Str) :=
  match params with
  | none => []
  | some ps => (ps.filter (fun kv => !used.contains kv.1)).map (fun kv => (kv.1, pvalStr kv.2))

/-- Join pieces with a separator (`Array.prototype.join`). -/
def joinSep (sep : Str) : List Str → Str
  | [] => []
  | [x] => x
  | x :: xs => x ++ sep ++ joinSep sep xs

/-- Model of `new URLSearchParams(record).toString()`. -/
def queryString (qs : List (Str × Str)) : Str :=
  joinSep ['&'] (qs.map (fun kv => formEnc kv.1 ++ ['='] ++ formEnc kv.2))

/-- Model of `route(name, params)` from the application factory: look the
name up, reject injection characters in supplied values before any
substitution, substitute path parameters, and append unconsumed entries as a
query string. -/
def route (named : List (Str × Route)) (name : Str)
    (params : Option (List (Str × PVal))) : Except GenErr Str :=
  match lookupName named name with
  | none => .error .routeNotFound
  | some r =>
      match findBadOpt params with
      | some k => .error (.invalidParamValue k)
      | none =>
          match substLoop params (r.optionalParams.getD []) r.paramNames r.path [] with
          | .error e => .error e
          | .ok (url, used) =>
              let qs := queryEntries params used
              if qs.length > 0 then .ok (url ++ ('?' :: queryString qs)) else .ok url

/-! ## Request dispatch (`handleRequest` in `src/index.ts` and the 404/405
handlers)

Responses carry a status, headers and an optional body; header names compare
ASCII case-insensitively as host `Headers` do.  Handler results are modelled
directly as responses (`toResponse` applied), and the execution of a matched
route is a parameter, as `handleRequest` closes over `executeRoute`. -/

/-- A response: status, headers, optional body. -/
structure Resp where
  status : Nat
  headers : List (Str × Str) := []
  body : Option Str := none

/-- An incoming request, reduced to the fields dispatch reads. -/
structure Req where
  method : Str
  path : Str

/-- Optional custom error handlers supplied at application creation. -/
structure AppOptions where
  onMethodNotAllowed : Option (Req → List Str → Resp) := none
  onNotFound : Option (Req → Resp) := none

/-- ASCII lower-casing of one character. -/
def lowerChar (c : Char) : Char :=
  if 'A' ≤ c && c ≤ 'Z' then Char.ofNat (c.toNat + 32) else c

/-- ASCII lower-casing of a header name. -/
def lowerStr (s : Str) : Str := s.map lowerChar

/-- Case-insensitive header read, as `Headers.get`. -/
def hget : List (Str × Str) → Str → Option Str
  | [], _ => none
  | (k, v) :: hs, n => if lowerStr k = lowerStr n then some v else hget hs n

/-- Case-insensitive header write, as `Headers.set`. -/
def hset : List (Str × Str) → Str → Str → List (Str × Str)
  | [], n, v => [(n, v)]
  | (k, w) :: hs, n, v =>
      if lowerStr k = lowerStr n then (n, v) :: hs else (k, w) :: hset hs n v

/-- Default JSON error body. -/
def jsonBody (msg : String) : Str :=
  str "\x7b\"error\":\"" ++ str msg ++ str "\"\x7d"

/-- The JSON content-type header. -/
def contentTypeJson : Str × Str := (str "Content-Type", str "application/json")

/-- Comma-joined allowed-methods list for the `Allow` header. -/
def joinComma (ms : List Str) : Str := joinSep (str ", ") ms

/-- Model of `handleNotFound`. -/
def handleNotFound (req : Req) (opts : AppOptions) : Resp :=
  match opts.onNotFound with
  | some h => h req
  | none => { status := 404, headers := [contentTypeJson], body := some (jsonBody "Not found") }

/-- Model of `handleMethodNotAllowed`: run the custom handler when supplied
and inject the computed `Allow` header if its response omits one; otherwise
answer the default 405 JSON response carrying the `Allow` header. -/
def handleMethodNotAllowed (req : Req) (path : Str) (routes : List Route)
    (opts : AppOptions) : Resp :=
  let allowed := getAllowedMethods routes path
  match opts.onMethodNotAllowed with
  | some h =>
      let response := h req allowed
      match hget response.headers (str "Allow") with
      | none => { response with headers := hset response.headers (str "Allow") (joinComma allowed) }
      | some _ => response
  | none =>
      { status := 405
        headers := [contentTypeJson, (str "Allow", joinComma allowed)]
        body := some (jsonBody "Method not allowed") }

/-- Model of `handleOptions`. -/
def handleOptions (req : Req) (path : Str) (routes : List Route) (opts : AppOptions) : Resp :=
  if hasMatchingPath routes path then
    { status := 204
      headers := [(str "Allow", joinComma (getAllowedMethods routes path))]
      body := none }
  else handleNotFound req opts

/-- Model of `normalizeHeadMethod` from `src/handlers/head.ts`. -/
def normalizeHeadMethod (method path : Str) (routes : List Route) : Str :=
  if method ≠ str "HEAD" then method
  else if (findRoute routes (str "HEAD") path).isSome then str "HEAD"
  else if (findRoute routes (str "GET") path).isSome then str "GET"
  else str "HEAD"

/-- Model of `toHeadResponse`: drop the body, keep status and headers. -/
def toHeadResponse (r : Resp) : Resp := { r with body := none }

/-- Model of `handleRequest`: OPTIONS short-circuits, HEAD is normalised,
then either the matched route executes or the 405/404 distinction is made
from `hasMatchingPath`.  `exec` stands for `executeRoute` with the cached
middleware chain, over which `handleRequest` closes. -/
def handleRequest (exec : Route × Params → Resp) (routes : List Route)
    (opts : AppOptions) (req : Req) : Resp :=
  if req.method = str "OPTIONS" then handleOptions req req.path routes opts
  else
    let actualMethod := normalizeHeadMethod req.method req.path routes
    match findRoute routes actualMethod req.path with
    | none =>
        if hasMatchingPath routes req.path then handleMethodNotAllowed req req.path routes opts
        else handleNotFound req opts
    | some m =>
        let response := exec m
        if req.method = str "HEAD" then toHeadResponse response else response

/-- Route built by `addRoute` for a registration with the given method and
path and no group middleware: compile the path and keep the optional
parameter list only when non-empty.  The compile failure branch is
unreachable for the valid patterns used here. -/
def defRoute (method path : String) (rid : Nat) : Route :=
  match compilePath (str path) with
  | .ok c =>
      { method := str method
        path := str path
        segs := c.segs
        paramNames := c.paramNames
        optionalParams := if c.optionalParams.length > 0 then some c.optionalParams else none
        rid := rid }
  | .error _ =>
      { method := str method, path := str path, segs := [], paramNames := [], rid := rid }

/-! ## Helper lemmas on params records and constraints -/

theorem getKey_setKey (ps : Params) (n v k : Str) :
    getKey (setKey ps n v) k = if n = k then some v else getKey ps k := by
  induction ps with
  | nil => simp [setKey, getKey, eq_comm]
  | cons kv ps ih =>
    obtain ⟨k', v'⟩ := kv
    by_cases h : k' = n
    · subst h
      by_cases hk : k' = k <;> simp [setKey, getKey, hk]
    · by_cases hk : k' = k
      · subst hk
        have hn : ¬ (n = k') := fun hh => h hh.symm
        simp [setKey, getKey, h, hn]
      · simp [setKey, getKey, h, hk, ih]

theorem getKey_buildParams_not_mem (ns : List Str) (caps : List (Option Str))
    (ps : Params) (k : Str) (hk : k ∉ ns) :
    getKey (buildParams ns caps ps) k = getKey ps k := by
  induction ns generalizing caps ps with
  | nil => rfl
  | cons n ns ih =>
    have hkn : k ∉ ns := fun h => hk (List.mem_cons_of_mem _ h)
    have hne : ¬ (n = k) := fun h => hk (h ▸ List.mem_cons_self n ns)
    match caps with
    | [] => exact ih [] ps hkn
    | none :: cs => exact ih cs ps hkn
    | some v :: cs =>
      by_cases hv : v ≠ []
      · simp only [buildParams]
        rw [if_pos hv, ih cs _ hkn, getKey_setKey, if_neg hne]
      · simp only [buildParams]
        rw [if_neg hv]
        exact ih cs ps hkn

theorem getKey_buildParams_ne_empty (ns : List Str) (caps : List (Option Str))
    (ps : Params) (hps : ∀ k, getKey ps k ≠ some []) :
    ∀ k, getKey (buildParams ns caps ps) k ≠ some [] := by
  induction ns generalizing caps ps with
  | nil => exact hps
  | cons n ns ih =>
    match caps with
    | [] => exact ih [] ps hps
    | none :: cs => exact ih cs ps hps
    | some v :: cs =>
      by_cases hv : v ≠ []
      · simp only [buildParams]
        rw [if_pos hv]
        refine ih cs _ (fun k => ?_)
        rw [getKey_setKey]
        split
        · intro h
          exact hv (by simpa using h)
        · exact hps k
      · simp only [buildParams]
        rw [if_neg hv]
        exact ih cs ps hps

theorem extractParams_ne_empty (path : Str) (r : Route) (k : Str) :
    getKey (extractParams path r) k ≠ some [] := by
  unfold extractParams
  match matchSegs r.segs path with
  | none => simp [getKey]
  | some caps =>
    exact getKey_buildParams_ne_empty r.paramNames caps [] (fun _ => by simp [getKey]) k

theorem extractParams_not_param (path : Str) (r : Route) (k : Str)
    (hk : k ∉ r.paramNames) : getKey (extractParams path r) k = none := by
  unfold extractParams
  match matchSegs r.segs path with
  | none => simp [getKey]
  | some caps => rw [getKey_buildParams_not_mem _ _ _ _ hk]; rfl

theorem checkConstraintsList_skip (params : Params) (k : Str) (rule : JSRegExp)
    (cs : List (Str × JSRegExp)) (h : getKey params k = none) :
    checkConstraintsList params ((k, rule) :: cs) = checkConstraintsList params cs := by
  simp [checkConstraintsList, h]

theorem checkConstraintsList_setConstraint (params : Params) (k : Str)
    (rule : JSRegExp) (cs : List (Str × JSRegExp)) (h : getKey params k = none) :
    checkConstraintsList params (addConstraint.setConstraint cs k rule)
      = checkConstraintsList params cs := by
  induction cs with
  | nil => simp [addConstraint.setConstraint, checkConstraintsList, h]
  | cons kv cs ih =>
    obtain ⟨k', rule'⟩ := kv
    by_cases hk : k' = k
    · subst hk
      simp only [addConstraint.setConstraint, if_pos]
      rw [checkConstraintsList_skip _ _ _ _ h, checkConstraintsList_skip _ _ _ _ h]
    · simp only [addConstraint.setConstraint, if_neg hk]
      simp only [checkConstraintsList]
      rw [ih]

/-! ## Claim theorems -/

/-- C1: `findRoute` returns the first registered route, in registration
order, whose compiled pattern structurally matches the path, whose method
equals the requested method and whose constraints all pass on the extracted
parameters (candidates failing any of the three tests are skipped and later
routes are still tried); when no route qualifies the result is `none`.
Expressed as equality with `List.find?` of `routeQualifies`, which is
exactly the first-qualifying-entry semantics; `findRoute` is a pure function
of its arguments, so repeated identical calls agree definitionally. -/
theorem claim1_findRoute_first_match (routes : List Route) (method path : Str) :
    findRoute routes method path
        = (routes.find? (routeQualifies method path)).map
            (fun r => (r, extractParams path r))
      ∧ (findRoute routes method path = none ↔
          ∀ r ∈ routes, routeQualifies method path r = false) := by
  have key : ∀ rs : List Route, findRoute rs method path
      = (rs.find? (routeQualifies method path)).map (fun r => (r, extractParams path r)) := by
    intro rs
    induction rs with
    | nil => rfl
    | cons r rs ih =>
      by_cases h1 : routeTest r path = true
      · by_cases h2 : r.method = method
        · by_cases h3 : checkConstraints (extractParams path r) r.constraints = true
          · have hq : routeQualifies method path r = true := by
              simp [routeQualifies, h1, h2, h3]
            simp [findRoute, h1, h2, h3, List.find?, hq]
          · have hq : routeQualifies method path r = false := by
              simp [routeQualifies, h1, h2]
              simpa using h3
            simp [findRoute, h1, h2, h3, List.find?, hq, ih]
        · have hq : routeQualifies method path r = false := by
            simp [routeQualifies, h1, h2]
          simp [findRoute, h1, h2, List.find?, hq, ih]
      · have hq : routeQualifies method path r = false := by
          simp [routeQualifies]
          intro h
          exact absurd h h1
        simp [findRoute, h1, List.find?, hq, ih]
  refine ⟨key routes, ?_⟩
  rw [key routes]
  simp [List.find?_eq_none]

/-- C3: the compiled pattern of `/archive/:year?/:month?` structurally
matches all six paths with zero, one or two optional segments, with or
without a trailing slash; omitted optional segments yield unset keys in the
extracted params rather than empty strings; and no extracted parameter is
ever the empty string, for any path and route. -/
theorem claim3_optional_params :
    (routeTest (defRoute "GET" "/archive/:year?/:month?" 0) (str "/archive") = true
      ∧ routeTest (defRoute "GET" "/archive/:year?/:month?" 0) (str "/archive/") = true
      ∧ routeTest (defRoute "GET" "/archive/:year?/:month?" 0) (str "/archive/2024") = true
      ∧ routeTest (defRoute "GET" "/archive/:year?/:month?" 0) (str "/archive/2024/") = true
      ∧ routeTest (defRoute "GET" "/archive/:year?/:month?" 0) (str "/archive/2024/06") = true
      ∧ routeTest (defRoute "GET" "/archive/:year?/:month?" 0) (str "/archive/2024/06/") = true)
    ∧ (getKey (extractParams (str "/archive") (defRoute "GET" "/archive/:year?/:month?" 0))
          (str "year") = none
      ∧ getKey (extractParams (str "/archive") (defRoute "GET" "/archive/:year?/:month?" 0))
          (str "month") = none
      ∧ getKey (extractParams (str "/archive/") (defRoute "GET" "/archive/:year?/:month?" 0))
          (str "year") = none
      ∧ getKey (extractParams (str "/archive/2024") (defRoute "GET" "/archive/:year?/:month?" 0))
          (str "year") = some (str "2024")
      ∧ getKey (extractParams (str "/archive/2024") (defRoute "GET" "/archive/:year?/:month?" 0))
          (str "month") = none)
    ∧ (∀ (path : Str) (r : Route) (k : Str),
        getKey (extractParams path r) k ≠ some (str "")) :=
  ⟨by decide, by decide, fun path r k => extractParams_ne_empty path r k⟩

/-- C5 counterexample: with the rule compiled from `where("id", "b")` (the
source pattern `b`, compiled by `compilePattern` without added anchors), the
present parameter `id = "abc"` passes `checkConstraints` although its entire
value does not satisfy the rule — `RegExp.test` finds the match inside the
value, so full-value matching is not what the code implements for unanchored
string rules. -/
theorem claim5_counterexample :
    checkConstraints [(str "id", str "abc")]
        (some [(str "id", { aStart := false, aEnd := false, core := RE.chr 'b' })]) = true
      ∧ matchRE (RE.chr 'b') (str "abc") = false := by
  decide

/-- C5 (amended): `checkConstraints` returns `true` whenever constraints are
absent; a parameter absent from the params always passes regardless of its
rule; a present parameter passes exactly when `RegExp.test` accepts it,
which is a substring search for unanchored rules; for a rule anchored on
both sides — as all built-in helper rules such as `whereNumber` are — the
test coincides with full-value matching. -/
theorem claim5_constraint_semantics :
    (∀ params, checkConstraints params none = true)
    ∧ (∀ (params : Params) (k : Str) (rule : JSRegExp) (cs : List (Str × JSRegExp)),
        getKey params k = none →
          checkConstraintsList params ((k, rule) :: cs) = checkConstraintsList params cs)
    ∧ (∀ (params : Params) (k v : Str) (rule : JSRegExp) (cs : List (Str × JSRegExp)),
        getKey params k = some v →
          checkConstraintsList params ((k, rule) :: cs)
            = (reTest rule v && checkConstraintsList params cs))
    ∧ (∀ (rule : JSRegExp) (v : Str), rule.aStart = true → rule.aEnd = true →
        reTest rule v = matchRE rule.core v)
    ∧ (∀ v : Str, reTest whereNumberRule v = matchRE whereNumberRule.core v) := by
  refine ⟨fun _ => rfl, ?_, ?_, ?_, ?_⟩
  · intro params k rule cs h
    simp [checkConstraintsList, h]
  · intro params k v rule cs h
    simp only [checkConstraintsList, h]
    by_cases ht : reTest rule v = true <;> simp [ht]
  · intro rule v h1 h2
    simp [reTest, h1, h2]
  · intro v
    simp [reTest, whereNumberRule]

/-- C10: a constraint keyed by a name the route pattern never captures has
no effect: the extracted params never contain that key, and registering the
constraint through the builder's `addConstraint` leaves both the constraint
check and the full qualification test of `findRoute` unchanged. -/
theorem claim10_uncaptured_constraint (r : Route) (method path k : Str)
    (rule : JSRegExp) (hk : k ∉ r.paramNames) :
    getKey (extractParams path r) k = none
    ∧ checkConstraints (extractParams path r) (addConstraint r k rule).constraints
        = checkConstraints (extractParams path r) r.constraints
    ∧ routeQualifies method path (addConstraint r k rule) = routeQualifies method path r := by
  have hnone : getKey (extractParams path r) k = none := extractParams_not_param path r k hk
  have hsame : ∀ q : Route, q.segs = r.segs → q.paramNames = r.paramNames →
      extractParams path q = extractParams path r := by
    intro q hs hp
    unfold extractParams
    rw [hs, hp]
  have hchk : checkConstraints (extractParams path r) (addConstraint r k rule).constraints
      = checkConstraints (extractParams path r) r.constraints := by
    match hc : r.constraints with
    | none =>
        simp [addConstraint, hc, checkConstraints, checkConstraintsList, hnone]
    | some cs =>
        simp only [addConstraint, hc, checkConstraints]
        exact checkConstraintsList_setConstraint _ _ _ _ hnone
  refine ⟨hnone, hchk, ?_⟩
  have hsegs : (addConstraint r k rule).segs = r.segs := by
    match hc : r.constraints with
    | none => simp [addConstraint, hc]
    | some cs => simp [addConstraint, hc]
  have hpn : (addConstraint r k rule).paramNames = r.paramNames := by
    match hc : r.constraints with
    | none => simp [addConstraint, hc]
    | some cs => simp [addConstraint, hc]
  have hm : (addConstraint r k rule).method = r.method := by
    match hc : r.constraints with
    | none => simp [addConstraint, hc]
    | some cs => simp [addConstraint, hc]
  have hep : extractParams path (addConstraint r k rule) = extractParams path r :=
    hsame _ hsegs hpn
  simp only [routeQualifies, routeTest, hsegs, hpn, hm, hep, hchk]

/-- C10 witness: instantiation at the route `GET /users/:id` and the
uncaptured (misspelled) constraint name `slug`. -/
theorem claim10_witness :
    (str "slug") ∉ (defRoute "GET" "/users/:id" 0).paramNames
    ∧ getKey (extractParams (str "/users/42") (defRoute "GET" "/users/:id" 0)) (str "slug") = none :=
  ⟨by decide,
    (claim10_uncaptured_constraint (defRoute "GET" "/users/:id" 0) (str "GET")
      (str "/users/42") (str "slug") whereNumberRule (by decide)).1⟩

/-! ## Lemmas on slash normalisation -/

@[simp] theorem startsWithSlash_nil : startsWithSlash [] = false := rfl

@[simp] theorem startsWithSlash_cons (c : Char) (cs : Str) :
    startsWithSlash (c :: cs) = decide (c = '/') := rfl

@[simp] theorem endsWithSlash_nil : endsWithSlash [] = false := rfl

@[simp] theorem endsWithSlash_singleton (c : Char) :
    endsWithSlash [c] = decide (c = '/') := rfl

@[simp] theorem endsWithSlash_cons_cons (c d : Char) (cs : Str) :
    endsWithSlash (c :: d :: cs) = endsWithSlash (d :: cs) := rfl

@[simp] theorem hasDS_nil : hasDoubleSlash [] = false := rfl

@[simp] theorem hasDS_cons (c : Char) (cs : Str) :
    hasDoubleSlash (c :: cs)
      = ((decide (c = '/') && startsWithSlash cs) || hasDoubleSlash cs) := rfl

theorem endsWithSlash_append_singleton (a : Str) (x : Char) :
    endsWithSlash (a ++ [x]) = decide (x = '/') := by
  induction a with
  | nil => rfl
  | cons c a ih =>
    cases a with
    | nil => rfl
    | cons d a' =>
      rw [List.cons_append, List.cons_append, endsWithSlash_cons_cons]
      exact ih

theorem hasDS_append (a b : Str) :
    hasDoubleSlash (a ++ b)
      = (hasDoubleSlash a || hasDoubleSlash b || (endsWithSlash a && startsWithSlash b)) := by
  induction a with
  | nil => simp
  | cons c a ih =>
    cases a with
    | nil =>
      simp only [List.singleton_append, hasDS_cons, hasDS_nil, endsWithSlash_singleton,
        startsWithSlash_nil]
      cases hc : decide (c = '/') <;> cases hb : hasDoubleSlash b <;>
        cases hsb : startsWithSlash b <;> simp [hc, hb, hsb]
    | cons d a' =>
      simp only [List.cons_append, hasDS_cons, startsWithSlash_cons,
        endsWithSlash_cons_cons] at ih ⊢
      rw [ih]
      simp only [Bool.or_assoc]

theorem hasDS_dropLast (s : Str) (h : hasDoubleSlash s = false) :
    hasDoubleSlash s.dropLast = false := by
  by_cases hne : s = []
  · subst hne; rfl
  · have h2 : hasDoubleSlash (s.dropLast ++ [s.getLast hne]) = false := by
      rw [List.dropLast_append_getLast hne]; exact h
    rw [hasDS_append] at h2
    simp only [Bool.or_eq_false_iff] at h2
    exact h2.1.1

theorem endsWithSlash_dropLast (s : Str) (hclean : hasDoubleSlash s = false)
    (hend : endsWithSlash s = true) : endsWithSlash s.dropLast = false := by
  have hne : s ≠ [] := by
    intro h
    rw [h] at hend
    simp at hend
  have hlast : decide (s.getLast hne = '/') = true := by
    have h3 := endsWithSlash_append_singleton s.dropLast (s.getLast hne)
    rw [List.dropLast_append_getLast hne] at h3
    rw [← h3]
    exact hend
  have h2 : hasDoubleSlash (s.dropLast ++ [s.getLast hne]) = false := by
    rw [List.dropLast_append_getLast hne]; exact hclean
  rw [hasDS_append] at h2
  simp only [Bool.or_eq_false_iff, Bool.and_eq_false_iff] at h2
  rcases h2.2 with h | h
  · exact h
  · rw [startsWithSlash_cons, hlast] at h
    exact absurd h (by simp)

theorem ensureLeadingSlash_clean (q : Str) (h : hasDoubleSlash q = false) :
    hasDoubleSlash (ensureLeadingSlash q) = false := by
  unfold ensureLeadingSlash
  split
  · rename_i hc
    simp only [Bool.not_eq_true'] at hc
    simp [hc, h]
  · exact h

theorem stripTrailingSlash_clean (n : Str) (h : hasDoubleSlash n = false) :
    hasDoubleSlash (stripTrailingSlash n) = false := by
  unfold stripTrailingSlash
  split
  · exact hasDS_dropLast n h
  · exact h

theorem normalizePrefix_clean (q : Str) (h : hasDoubleSlash q = false) :
    hasDoubleSlash (normalizePrefix q) = false :=
  stripTrailingSlash_clean _ (ensureLeadingSlash_clean q h)

theorem stripTrailingSlash_not_end (n : Str) (hclean : hasDoubleSlash n = false)
    (hne : stripTrailingSlash n ≠ str "/") :
    endsWithSlash (stripTrailingSlash n) = false := by
  unfold stripTrailingSlash at hne ⊢
  by_cases hcut : (endsWithSlash n && decide (n.length > 1)) = true
  · rw [if_pos hcut] at hne ⊢
    simp only [Bool.and_eq_true, decide_eq_true_eq] at hcut
    exact endsWithSlash_dropLast n hclean hcut.1
  · rw [if_neg hcut] at hne ⊢
    by_cases hend : endsWithSlash n = true
    · exfalso
      have hlen : ¬ n.length > 1 := by
        intro hl
        exact hcut (by simp [hend, hl])
      match n, hend, hlen, hne with
      | [c], hend, _, hne =>
        have hc : c = '/' := by simpa using hend
        subst hc
        exact hne rfl
      | c :: d :: cs, _, hlen, _ => simp at hlen
    · simpa using hend

theorem normalizePrefix_not_end (q : Str) (h : hasDoubleSlash q = false)
    (hne : normalizePrefix q ≠ str "/") : endsWithSlash (normalizePrefix q) = false :=
  stripTrailingSlash_not_end _ (ensureLeadingSlash_clean q h) hne

/-- C6 counterexample: composing the root prefix `/` with the sub-path
`/users` — reachable from `group("/")` — yields `//users`, a full path that
does contain a double slash, refuting the claim that a composed full path
never contains `//`. -/
theorem claim6_counterexample :
    joinPaths (str "/") (str "/users") = str "//users"
    ∧ hasDoubleSlash (joinPaths (str "/") (str "/users")) = true := by
  decide

/-- C6 (amended): the prefixes `api`, `/api/` and `/api` compose identically
with every sub-path; composition never creates a double slash provided the
joined components themselves contain none and the normalised prefix is not
the bare root `/` (for the root prefix, or components already containing
`//`, a double slash can appear, as the counterexample shows); and group
nesting is associative: registering inside nested groups equals registering
inside one group whose prefix is the join of the nested prefixes, for two
and three levels. -/
theorem claim6_prefix_composition :
    (∀ p : Str, joinPaths (str "api") p = joinPaths (str "/api") p
        ∧ joinPaths (str "/api/") p = joinPaths (str "/api") p)
    ∧ (∀ q path : Str, hasDoubleSlash q = false → hasDoubleSlash path = false →
        normalizePrefix q ≠ str "/" → hasDoubleSlash (joinPaths q path) = false)
    ∧ (∀ a b p : Str, groupRegisteredPath a [b] p = groupRegisteredPath (joinPaths a b) [] p)
    ∧ (∀ a b c p : Str,
        groupRegisteredPath a [b, c] p
          = groupRegisteredPath (joinPaths (joinPaths a b) c) [] p) := by
  refine ⟨fun p => ⟨rfl, rfl⟩, ?_, fun a b p => rfl, fun a b c p => rfl⟩
  intro q path hq hpath hne
  have hnp : hasDoubleSlash (normalizePrefix q) = false := normalizePrefix_clean q hq
  have hend : endsWithSlash (normalizePrefix q) = false := normalizePrefix_not_end q hq hne
  have hnpath : hasDoubleSlash (normalizePathPart path) = false := by
    unfold normalizePathPart
    split
    · rename_i hc
      simp only [Bool.and_eq_true, Bool.not_eq_true'] at hc
      simp [hc.1, hpath]
    · exact hpath
  unfold joinPaths
  split
  · exact hnp
  · rw [hasDS_append, hnp, hend, hnpath]
    rfl

/-- C6 witness: the amended composition properties instantiated at the
prefix `/api` and sub-path `users`. -/
theorem claim6_witness :
    hasDoubleSlash (str "/api") = false ∧ hasDoubleSlash (str "users") = false
    ∧ normalizePrefix (str "/api") ≠ str "/"
    ∧ hasDoubleSlash (joinPaths (str "/api") (str "users")) = false :=
  ⟨by decide, by decide, by decide,
    claim6_prefix_composition.2.1 (str "/api") (str "users")
      (by decide) (by decide) (by decide)⟩

/-! ## Lemmas on the execution pipeline -/

theorem runAux_replicate (k i0 : Nat) :
    runAux i0 (List.replicate k MWBeh.pass)
      = (List.range k).map (fun j => Ev.before (i0 + j))
        ++ Ev.handler :: ((List.range k).reverse.map (fun j => Ev.after (i0 + j))) := by
  induction k generalizing i0 with
  | zero => simp [runAux]
  | succ k ih =>
    rw [List.replicate_succ]
    simp only [runAux]
    rw [ih (i0 + 1), List.range_succ_eq_map]
    simp only [List.map_cons, List.map_map, List.reverse_cons, List.map_append,
      List.map_reverse, List.cons_append, List.append_assoc, List.singleton_append,
      List.nil_append, List.map_nil, Function.comp_def, Nat.add_zero]
    have harith : ∀ f : Nat → Ev, (fun x => f (i0 + x.succ)) = (fun j => f (i0 + 1 + j)) := by
      intro f
      funext x
      congr 1
      omega
    rw [harith Ev.before, harith Ev.after]

theorem runAux_stop (mws : List MWBeh) : ∀ (i0 i : Nat), mws[i]? = some MWBeh.stop →
    Ev.handler ∉ runAux i0 mws
    ∧ ∀ j, i0 + i < j → (Ev.before j ∉ runAux i0 mws ∧ Ev.after j ∉ runAux i0 mws) := by
  induction mws with
  | nil => intro i0 i h; simp at h
  | cons b rest ih =>
    intro i0 i h
    cases b with
    | stop =>
      refine ⟨by simp [runAux], fun j hj => ⟨?_, ?_⟩⟩
      · simp only [runAux, List.mem_singleton]
        intro heq
        cases heq
        omega
      · simp [runAux]
    | pass =>
      match i, h with
      | 0, h => simp at h
      | (i' + 1), h =>
        have h' : rest[i']? = some MWBeh.stop := by simpa using h
        obtain ⟨ih1, ih2⟩ := ih (i0 + 1) i' h'
        constructor
        · simp [runAux, List.mem_append, ih1]
        · intro j hj
          have hj' : (i0 + 1) + i' < j := by omega
          obtain ⟨hb, ha⟩ := ih2 j hj'
          have hji0 : j ≠ i0 := by omega
          constructor
          · simp only [runAux, List.mem_cons, List.mem_append, List.mem_singleton]
            push_neg
            exact ⟨by simp [hji0], hb, by simp⟩
          · simp only [runAux, List.mem_cons, List.mem_append, List.mem_singleton]
            push_neg
            exact ⟨by simp, ha, by simp [hji0]⟩

/-- C2: the execution pipeline runs the middleware chain as strictly nested
continuations.  Middleware are modelled by their control behaviour (`pass`
performs a before-effect, invokes its continuation once, then performs an
after-effect; `stop` returns without invoking the continuation), with
events tagged by chain index.  For the two-element chain the trace is
exactly before-0, before-1, handler, after-1, after-0; for a chain of `k`
pass middleware the trace is all befores in index order, the handler, then
the afters in reverse index order; and whenever some middleware at index `i`
stops, the handler and every middleware after `i` contribute no event. -/
theorem claim2_middleware_nesting :
    runChain [MWBeh.pass, MWBeh.pass]
        = [Ev.before 0, Ev.before 1, Ev.handler, Ev.after 1, Ev.after 0]
    ∧ (∀ k : Nat, runChain (List.replicate k MWBeh.pass)
        = (List.range k).map Ev.before
            ++ Ev.handler :: ((List.range k).reverse.map Ev.after))
    ∧ (∀ (mws : List MWBeh) (i : Nat), mws[i]? = some MWBeh.stop →
        Ev.handler ∉ runChain mws
        ∧ ∀ j, i < j → Ev.before j ∉ runChain mws ∧ Ev.after j ∉ runChain mws) := by
  refine ⟨rfl, ?_, ?_⟩
  · intro k
    simpa [runChain, Nat.zero_add] using runAux_replicate k 0
  · intro mws i h
    simpa [runChain, Nat.zero_add] using runAux_stop mws 0 i h

/-! ## Lemmas on the middleware chain cache -/

theorem chainOf_eq (st : AppState) (r : Route) :
    chainOf st r = st.middlewares ++ r.middleware.getD [] := by
  cases hm : r.middleware with
  | some ms => simp [chainOf, hm]
  | none => cases hmw : st.middlewares <;> simp [chainOf, hm, hmw]

/-- C4: `getMiddlewareChain` returns the global middleware concatenated with
the route's attached middleware, under the cache-coherence invariant that a
current-version cache entry stores that very chain and the invariant that
stored version stamps never exceed the counter (both hold in every reachable
state and are preserved by the operations below); the result is memoized
under the route's identity stamped with the current version; `use`
increments the version counter and appends the middleware; and a dispatch
performed after `use` observes a chain that contains the newly registered
middleware — a stale entry is never served because its stamp can no longer
equal the bumped counter. -/
theorem claim4_middleware_cache (st : AppState) (r : Route) (mw : Nat)
    (hVB : VersionBound st) (hCo : CoherentAt st r) :
    (getMiddlewareChain st r).1 = st.middlewares ++ r.middleware.getD []
    ∧ (getMiddlewareChain st r).2.cache r.rid = some (st.version, (getMiddlewareChain st r).1)
    ∧ (use st mw).version = st.version + 1
    ∧ (use st mw).middlewares = st.middlewares ++ [mw]
    ∧ (getMiddlewareChain (use st mw) r).1 = (st.middlewares ++ [mw]) ++ r.middleware.getD []
    ∧ mw ∈ (getMiddlewareChain (use st mw) r).1
    ∧ VersionBound (getMiddlewareChain st r).2
    ∧ VersionBound (use st mw) := by
  have h1 : (getMiddlewareChain st r).1 = st.middlewares ++ r.middleware.getD [] := by
    rw [← chainOf_eq]
    cases hc : st.cache r.rid with
    | none => simp [getMiddlewareChain, hc]
    | some vc =>
      obtain ⟨v, chain⟩ := vc
      by_cases hv : v = st.version
      · subst hv
        simp only [getMiddlewareChain, hc, if_pos rfl]
        exact hCo _ chain hc rfl
      · simp [getMiddlewareChain, hc, hv]
  have h2 : (getMiddlewareChain st r).2.cache r.rid
      = some (st.version, (getMiddlewareChain st r).1) := by
    cases hc : st.cache r.rid with
    | none => simp [getMiddlewareChain, hc]
    | some vc =>
      obtain ⟨v, chain⟩ := vc
      by_cases hv : v = st.version
      · subst hv
        simp only [getMiddlewareChain, hc, if_pos rfl]
        exact hc
      · simp [getMiddlewareChain, hc, hv]
  have hstale : ∀ (st' : AppState),
      (∀ v chain, st'.cache r.rid = some (v, chain) → ¬ v = st'.version) →
      (getMiddlewareChain st' r).1 = chainOf st' r := by
    intro st' hall
    cases hc : st'.cache r.rid with
    | none => simp [getMiddlewareChain, hc]
    | some vc =>
      obtain ⟨v, chain⟩ := vc
      simp [getMiddlewareChain, hc, hall v chain hc]
  have h5 : (getMiddlewareChain (use st mw) r).1
      = (st.middlewares ++ [mw]) ++ r.middleware.getD [] := by
    have hch : chainOf (use st mw) r = (st.middlewares ++ [mw]) ++ r.middleware.getD [] := by
      rw [chainOf_eq]; rfl
    rw [← hch]
    refine hstale (use st mw) (fun v chain hc2 => ?_)
    have hvlt : v ≤ st.version := hVB r.rid v chain hc2
    simp only [use]
    omega
  have hver : (getMiddlewareChain st r).2.version = st.version := by
    cases hc : st.cache r.rid with
    | none => simp [getMiddlewareChain, hc]
    | some vc =>
      obtain ⟨v', chain'⟩ := vc
      by_cases hv : v' = st.version
      · subst hv
        simp [getMiddlewareChain, hc]
      · simp [getMiddlewareChain, hc, hv]
  refine ⟨h1, h2, rfl, rfl, h5, ?_, ?_, ?_⟩
  · rw [h5]
    simp
  · intro id v chain hc
    rw [hver]
    cases hcold : st.cache r.rid with
    | none =>
      simp only [getMiddlewareChain, hcold] at hc
      split at hc
      · simp only [Option.some.injEq, Prod.mk.injEq] at hc
        omega
      · exact hVB id v chain hc
    | some vc =>
      obtain ⟨v', chain'⟩ := vc
      by_cases hv : v' = st.version
      · subst hv
        simp only [getMiddlewareChain, hcold, if_pos rfl] at hc
        exact hVB id v chain hc
      · simp only [getMiddlewareChain, hcold, if_neg hv] at hc
        split at hc
        · simp only [Option.some.injEq, Prod.mk.injEq] at hc
          omega
        · exact hVB id v chain hc
  · intro id v chain hc
    have := hVB id v chain hc
    simp only [use]
    omega

/-- C4 witness: the cache behaviour instantiated at the empty initial state
(no cache entries, version zero) and a concrete route. -/
theorem claim4_witness :
    (getMiddlewareChain { middlewares := [], version := 0, cache := fun _ => none }
        (defRoute "GET" "/users" 0)).1 = []
    ∧ 7 ∈ (getMiddlewareChain
        (use { middlewares := [], version := 0, cache := fun _ => none } 7)
        (defRoute "GET" "/users" 0)).1 := by
  have h := claim4_middleware_cache
    { middlewares := [], version := 0, cache := fun _ => none }
    (defRoute "GET" "/users" 0) 7
    (fun id v chain hc => by simp at hc)
    (fun v chain hc => by simp at hc)
  exact ⟨by simpa using h.1, h.2.2.2.2.2.1⟩

/-! ## Round trip and dispatch claims -/

/-- The route registered as `GET /users/:id` and named `users.show`. -/
def usersShowRoute : Route :=
  { defRoute "GET" "/users/:id" 0 with name := some (str "users.show") }

/-- C7: URL-generation/matching round trip for the route named `users.show`
on `/users/:id`: `route("users.show", {id: 42})` yields `/users/42`, and
`findRoute` on `GET /users/42` matches that same route entry and extracts
the parameter `id = "42"`. -/
theorem claim7_roundtrip :
    route [(str "users.show", usersShowRoute)] (str "users.show")
        (some [(str "id", PVal.n 42)]) = .ok (str "/users/42")
    ∧ findRoute [usersShowRoute] (str "GET") (str "/users/42")
        = some (usersShowRoute, [(str "id", str "42")]) :=
  ⟨rfl, rfl⟩

theorem hget_hset (hs : List (Str × Str)) (n v : Str) : hget (hset hs n v) n = some v := by
  induction hs with
  | nil => simp [hset, hget]
  | cons kv hs ih =>
    obtain ⟨k, w⟩ := kv
    by_cases h : lowerStr k = lowerStr n
    · simp [hset, hget, h]
    · simp [hset, hget, h, ih]

/-- The route registered as `GET /users`. -/
def usersGetRoute : Route := defRoute "GET" "/users" 0

/-- C9: with only `GET /users` registered, a POST to `/users` yields a 405
response whose `Allow` header is `GET`, a GET to `/missing` yields a 404
response (for any execution function, which these paths never invoke); and
whenever a custom `onMethodNotAllowed` handler's response omits the `Allow`
header, `handleMethodNotAllowed` injects one carrying the computed
allowed-methods list. -/
theorem claim9_405_404 :
    (∀ exec : Route × Params → Resp,
      (handleRequest exec [usersGetRoute] {}
          { method := str "POST", path := str "/users" }).status = 405
      ∧ hget (handleRequest exec [usersGetRoute] {}
          { method := str "POST", path := str "/users" }).headers (str "Allow")
          = some (str "GET")
      ∧ (handleRequest exec [usersGetRoute] {}
          { method := str "GET", path := str "/missing" }).status = 404)
    ∧ (∀ (routes : List Route) (path : Str) (req : Req) (h : Req → List Str → Resp),
        hget (h req (getAllowedMethods routes path)).headers (str "Allow") = none →
        hget (handleMethodNotAllowed req path routes
            { onMethodNotAllowed := some h }).headers (str "Allow")
          = some (joinComma (getAllowedMethods routes path))) := by
  constructor
  · intro exec
    exact ⟨rfl, rfl, rfl⟩
  · intro routes path req h hnone
    simp only [handleMethodNotAllowed]
    rw [hnone]
    exact hget_hset _ _ _

/-- C9 witness: the `Allow`-injection branch instantiated with a custom 405
handler that returns a response with no headers at all. -/
theorem claim9_witness :
    hget ((fun (_ : Req) (_ : List Str) =>
        ({ status := 405 } : Resp)) { method := str "POST", path := str "/users" }
        (getAllowedMethods [usersGetRoute] (str "/users"))).headers (str "Allow") = none
    ∧ hget (handleMethodNotAllowed { method := str "POST", path := str "/users" }
        (str "/users") [usersGetRoute]
        { onMethodNotAllowed := some (fun _ _ => { status := 405 }) }).headers (str "Allow")
      = some (joinComma (getAllowedMethods [usersGetRoute] (str "/users"))) :=
  ⟨rfl,
    claim9_405_404.2 [usersGetRoute] (str "/users")
      { method := str "POST", path := str "/users" } (fun _ _ => { status := 405 }) rfl⟩

/-! ## Lemmas for the URL generator -/

theorem hasBadChar_cons (c : Char) (cs : Str) :
    hasBadChar (c :: cs) = (badChar c || hasBadChar cs) := rfl

theorem hasBadChar_append (a b : Str) :
    hasBadChar (a ++ b) = (hasBadChar a || hasBadChar b) := by
  simp [hasBadChar, List.any_append]

theorem hasBadChar_drop (s : Str) (k : Nat) (h : hasBadChar s = false) :
    hasBadChar (s.drop k) = false := by
  simp only [hasBadChar, List.any_eq_false] at h ⊢
  intro c hc
  exact h c (List.drop_subset _ _ hc)

theorem hasBadChar_dropOptQ (s : Str) (h : hasBadChar s = false) :
    hasBadChar (dropOptQ s) = false := by
  have hshape : dropOptQ s = s ∨ dropOptQ s = s.drop 1 := by
    match s with
    | [] => exact Or.inl rfl
    | c :: cs =>
      by_cases hc : c = '?'
      · subst hc
        exact Or.inr rfl
      · left
        unfold dropOptQ
        split
        next r heq =>
          injection heq with h1 h2
          exact absurd h1 hc
        next => rfl
  rcases hshape with h1 | h1 <;> rw [h1]
  · exact h
  · exact hasBadChar_drop s 1 h

theorem badChar_eq_true_iff (c : Char) :
    badChar c = true ↔ (c = '\r' ∨ c = '\n' ∨ c = Char.ofNat 0) := by
  simp [badChar, or_assoc]

theorem uriUnreserved_not_bad (c : Char) (h : uriUnreserved c = true) : badChar c = false := by
  by_contra hb
  rw [Bool.not_eq_false, badChar_eq_true_iff] at hb
  rcases hb with rfl | rfl | rfl <;> exact absurd h (by decide)

theorem formUnreserved_not_bad (c : Char) (h : formUnreserved c = true) : badChar c = false := by
  by_contra hb
  rw [Bool.not_eq_false, badChar_eq_true_iff] at hb
  rcases hb with rfl | rfl | rfl <;> exact absurd h (by decide)

theorem hexDigit_not_bad (n : Nat) (h : n < 16) : badChar (hexDigit n) = false := by
  interval_cases n <;> decide

theorem char_toNat_lt (c : Char) : c.toNat < 1114112 := by
  have h : c.val.toNat < 0xd800 ∨ (0xe000 ≤ c.val.toNat ∧ c.val.toNat < 0x110000) := c.valid
  have he : c.toNat = c.val.toNat := rfl
  omega

theorem utf8Bytes_lt (c : Char) : ∀ b ∈ utf8Bytes c, b < 256 := by
  intro b hb
  have hv := char_toNat_lt c
  simp only [utf8Bytes] at hb
  split at hb
  · simp only [List.mem_singleton] at hb
    omega
  · split at hb
    · simp only [List.mem_cons, List.mem_singleton, List.not_mem_nil, or_false] at hb
      rcases hb with rfl | rfl <;> omega
    · split at hb
      · simp only [List.mem_cons, List.mem_singleton, List.not_mem_nil, or_false] at hb
        rcases hb with rfl | rfl | rfl <;> omega
      · simp only [List.mem_cons, List.mem_singleton, List.not_mem_nil, or_false] at hb
        rcases hb with rfl | rfl | rfl | rfl <;> omega

theorem pctEncodeChar_clean (c : Char) : hasBadChar (pctEncodeChar c) = false := by
  have key : ∀ bs : List Nat, (∀ b ∈ bs, b < 256) →
      hasBadChar (bs.foldr
        (fun b acc => '%' :: hexDigit (b / 16) :: hexDigit (b % 16) :: acc) []) = false := by
    intro bs hbs
    induction bs with
    | nil => rfl
    | cons b bs ih =>
      have hb := hbs b (List.mem_cons_self _ _)
      simp only [List.foldr_cons]
      rw [hasBadChar_cons, hasBadChar_cons, hasBadChar_cons]
      rw [hexDigit_not_bad (b / 16) (by omega), hexDigit_not_bad (b % 16) (by omega),
        ih (fun x hx => hbs x (List.mem_cons_of_mem _ hx))]
      rfl
  exact key _ (utf8Bytes_lt c)

theorem encURIChar_clean (c : Char) : hasBadChar (encURIChar c) = false := by
  unfold encURIChar
  split
  · rename_i h
    rw [hasBadChar_cons, uriUnreserved_not_bad c h]
    rfl
  · exact pctEncodeChar_clean c

theorem encodeURIComponent_clean (s : Str) : hasBadChar (encodeURIComponent s) = false := by
  unfold encodeURIComponent
  induction s with
  | nil => rfl
  | cons c cs ih =>
    simp only [List.foldr_cons]
    rw [hasBadChar_append, ih, encURIChar_clean]
    rfl

theorem formEncChar_clean (c : Char) : hasBadChar (formEncChar c) = false := by
  unfold formEncChar
  split
  · rfl
  · split
    · rename_i h
      rw [hasBadChar_cons, formUnreserved_not_bad c h]
      rfl
    · exact pctEncodeChar_clean c

theorem formEnc_clean (s : Str) : hasBadChar (formEnc s) = false := by
  unfold formEnc
  induction s with
  | nil => rfl
  | cons c cs ih =>
    simp only [List.foldr_cons]
    rw [hasBadChar_append, ih, formEncChar_clean]
    rfl

theorem replaceFirstColon_clean (url n repl : Str) (hu : hasBadChar url = false)
    (hr : hasBadChar repl = false) : hasBadChar (replaceFirstColon url n repl) = false := by
  induction url with
  | nil => rfl
  | cons c cs ih =>
    unfold replaceFirstColon
    split
    · rw [hasBadChar_append, hr, hasBadChar_dropOptQ _ (hasBadChar_drop _ _ hu)]
      rfl
    · rw [hasBadChar_cons] at hu ⊢
      rw [Bool.or_eq_false_iff] at hu
      rw [hu.1, ih hu.2]
      rfl

theorem removeFirstOptional_clean (url n : Str) (hu : hasBadChar url = false) :
    hasBadChar (removeFirstOptional url n) = false := by
  induction url with
  | nil => rfl
  | cons c cs ih =>
    unfold removeFirstOptional
    split
    · exact hasBadChar_drop _ _ hu
    · rw [hasBadChar_cons] at hu ⊢
      rw [Bool.or_eq_false_iff] at hu
      rw [hu.1, ih hu.2]
      rfl

theorem joinSep_clean (sep : Str) (xs : List Str) (hsep : hasBadChar sep = false)
    (h : ∀ x ∈ xs, hasBadChar x = false) : hasBadChar (joinSep sep xs) = false := by
  induction xs with
  | nil => rfl
  | cons x xs ih =>
    cases xs with
    | nil => exact h x (by simp)
    | cons y ys =>
      show hasBadChar (x ++ sep ++ joinSep sep (y :: ys)) = false
      rw [hasBadChar_append, hasBadChar_append, hsep, h x (by simp),
        ih (fun z hz => h z (List.mem_cons_of_mem _ hz))]
      rfl

theorem queryString_clean (qs : List (Str × Str)) : hasBadChar (queryString qs) = false := by
  unfold queryString
  refine joinSep_clean _ _ (by decide) ?_
  intro x hx
  simp only [List.mem_map] at hx
  obtain ⟨kv, _, rfl⟩ := hx
  rw [hasBadChar_append, hasBadChar_append, formEnc_clean, formEnc_clean]
  decide

theorem findBad_some_iff (ps : List (Str × PVal)) :
    (∃ k, findBad ps = some k) ↔ ∃ kv ∈ ps, hasBadChar (pvalStr kv.2) = true := by
  induction ps with
  | nil =>
    constructor
    · rintro ⟨k, hk⟩
      cases hk
    · rintro ⟨kv, hkv, _⟩
      exact absurd hkv (List.not_mem_nil _)
  | cons kv ps ih =>
    obtain ⟨k, v⟩ := kv
    by_cases hb : hasBadChar (pvalStr v) = true
    · constructor
      · intro _
        exact ⟨(k, v), List.mem_cons_self _ _, hb⟩
      · intro _
        exact ⟨k, by simp [findBad, hb]⟩
    · simp only [Bool.not_eq_true] at hb
      have hsame : findBad ((k, v) :: ps) = findBad ps := by simp [findBad, hb]
      constructor
      · rintro ⟨k', hk'⟩
        rw [hsame] at hk'
        obtain ⟨kv', hm, hbad⟩ := ih.mp ⟨k', hk'⟩
        exact ⟨kv', List.mem_cons_of_mem _ hm, hbad⟩
      · rintro ⟨kv', hm, hbad⟩
        rcases List.mem_cons.mp hm with rfl | hm'
        · rw [hb] at hbad
          cases hbad
        · obtain ⟨k', hk'⟩ := ih.mpr ⟨kv', hm', hbad⟩
          exact ⟨k', by rw [hsame, hk']⟩

theorem substLoop_error_iff (params : Option (List (Str × PVal))) (opts : List Str) :
    ∀ (ns : List Str) (url : Str) (used : List Str),
      (∃ e, substLoop params opts ns url used = .error e)
        ↔ ∃ pn ∈ ns, lookupParam params pn = none ∧ opts.contains pn = false := by
  intro ns
  induction ns with
  | nil => intro url used; simp [substLoop]
  | cons pn rest ih =>
    intro url used
    cases hl : lookupParam params pn with
    | some v =>
      simp only [substLoop, hl]
      rw [ih]
      constructor
      · rintro ⟨x, hx, h1, h2⟩
        exact ⟨x, List.mem_cons_of_mem _ hx, h1, h2⟩
      · rintro ⟨x, hx, h1, h2⟩
        rcases List.mem_cons.mp hx with rfl | hx'
        · cases hl.symm.trans h1
        · exact ⟨x, hx', h1, h2⟩
    | none =>
      by_cases hc : opts.contains pn = true
      · simp only [substLoop, hl, if_pos hc]
        rw [ih]
        constructor
        · rintro ⟨x, hx, h1, h2⟩
          exact ⟨x, List.mem_cons_of_mem _ hx, h1, h2⟩
        · rintro ⟨x, hx, h1, h2⟩
          rcases List.mem_cons.mp hx with rfl | hx'
          · rw [h2] at hc
            cases hc
          · exact ⟨x, hx', h1, h2⟩
      · simp only [substLoop, hl, if_neg hc]
        constructor
        · intro _
          exact ⟨pn, List.mem_cons_self _ _, hl, by simpa using hc⟩
        · intro _
          exact ⟨_, rfl⟩

theorem substLoop_error_shape (params : Option (List (Str × PVal))) (opts : List Str) :
    ∀ (ns : List Str) (url : Str) (used : List Str) (e : GenErr),
      substLoop params opts ns url used = .error e →
      ∃ pn, pn ∈ ns ∧ lookupParam params pn = none ∧ opts.contains pn = false
        ∧ e = .missingRequiredParam pn := by
  intro ns
  induction ns with
  | nil => intro url used e h; simp [substLoop] at h
  | cons pn rest ih =>
    intro url used e h
    cases hl : lookupParam params pn with
    | some v =>
      simp only [substLoop, hl] at h
      obtain ⟨x, hx, h1, h2, h3⟩ := ih _ _ _ h
      exact ⟨x, List.mem_cons_of_mem _ hx, h1, h2, h3⟩
    | none =>
      by_cases hc : opts.contains pn = true
      · simp only [substLoop, hl, if_pos hc] at h
        obtain ⟨x, hx, h1, h2, h3⟩ := ih _ _ _ h
        exact ⟨x, List.mem_cons_of_mem _ hx, h1, h2, h3⟩
      · simp only [substLoop, hl, if_neg hc] at h
        cases h
        exact ⟨pn, List.mem_cons_self _ _, hl, by simpa using hc, rfl⟩

theorem substLoop_ok_clean (params : Option (List (Str × PVal))) (opts : List Str) :
    ∀ (ns : List Str) (url : Str) (used : List Str) (url' : Str) (used' : List Str),
      hasBadChar url = false →
      substLoop params opts ns url used = .ok (url', used') →
      hasBadChar url' = false := by
  intro ns
  induction ns with
  | nil =>
    intro url used url' used' hu h
    simp only [substLoop] at h
    cases h
    exact hu
  | cons pn rest ih =>
    intro url used url' used' hu h
    cases hl : lookupParam params pn with
    | some v =>
      simp only [substLoop, hl] at h
      exact ih _ _ _ _
        (replaceFirstColon_clean url pn _ hu (encodeURIComponent_clean _)) h
    | none =>
      by_cases hc : opts.contains pn = true
      · simp only [substLoop, hl, if_pos hc] at h
        exact ih _ _ _ _ (removeFirstOptional_clean url pn hu) h
      · simp only [substLoop, hl, if_neg hc] at h
        cases h

/-- C8: `route(name, params)` fails exactly when no registered route carries
the name, or some supplied value contains a carriage return, line feed or
NUL, or a required path parameter has no supplied value; the three failures
surface as `routeNotFound`, `invalidParamValue` (raised before any
substitution) and `missingRequiredParam` naming the parameter; and a
successfully generated URL contains no such injection character whenever the
stored route path itself is free of them — supplied values are URL-encoded
into the path and form-encoded into the query string. -/
theorem claim8_route_generation (named : List (Str × Route)) (name : Str)
    (params : Option (List (Str × PVal))) :
    ((∃ e, route named name params = .error e)
        ↔ (lookupName named name = none
            ∨ (∃ kv ∈ params.getD [], hasBadChar (pvalStr kv.2) = true)
            ∨ (∃ r, lookupName named name = some r
                ∧ ∃ pn ∈ r.paramNames, lookupParam params pn = none
                    ∧ (r.optionalParams.getD []).contains pn = false)))
    ∧ (lookupName named name = none → route named name params = .error .routeNotFound)
    ∧ (∀ r k, lookupName named name = some r → findBadOpt params = some k →
        route named name params = .error (.invalidParamValue k))
    ∧ (∀ r e, lookupName named name = some r → findBadOpt params = none →
        route named name params = .error e →
        ∃ pn ∈ r.paramNames, lookupParam params pn = none
          ∧ (r.optionalParams.getD []).contains pn = false
          ∧ e = .missingRequiredParam pn)
    ∧ (∀ r url, lookupName named name = some r → hasBadChar r.path = false →
        route named name params = .ok url → hasBadChar url = false) := by
  obtain hlk | ⟨r0, hlk⟩ :
      lookupName named name = none ∨ ∃ r0, lookupName named name = some r0 := by
    cases lookupName named name <;> simp
  case inl =>
    have hr : route named name params = .error .routeNotFound := by
      simp [route, hlk]
    refine ⟨⟨fun _ => Or.inl hlk, fun _ => ⟨_, hr⟩⟩, fun _ => hr, ?_, ?_, ?_⟩
    · intro r k h
      cases hlk.symm.trans h
    · intro r e h
      cases hlk.symm.trans h
    · intro r url h
      cases hlk.symm.trans h
  case inr =>
    obtain ⟨k0, hfb⟩ | hfb :
        (∃ k0, findBadOpt params = some k0) ∨ findBadOpt params = none := by
      cases findBadOpt params <;> simp
    case inl =>
      have hr : route named name params = .error (.invalidParamValue k0) := by
        simp [route, hlk, hfb]
      have hbad : ∃ kv ∈ params.getD [], hasBadChar (pvalStr kv.2) = true := by
        cases params with
        | none => simp [findBadOpt] at hfb
        | some ps =>
          have hex : ∃ k, findBad ps = some k := ⟨k0, by simpa [findBadOpt] using hfb⟩
          simpa using (findBad_some_iff ps).mp hex
      refine ⟨⟨fun _ => Or.inr (Or.inl hbad), fun _ => ⟨_, hr⟩⟩, ?_, ?_, ?_, ?_⟩
      · intro h
        cases hlk.symm.trans h
      · intro r k h1 h2
        have hk : k0 = k := by
          have := hfb.symm.trans h2
          injection this
        subst hk
        exact hr
      · intro r e h1 h2
        cases hfb.symm.trans h2
      · intro r url h1 h2 h3
        cases hr.symm.trans h3
    case inr =>
      cases hsl : substLoop params (r0.optionalParams.getD []) r0.paramNames r0.path [] with
      | error e0 =>
        have hr : route named name params = .error e0 := by
          simp [route, hlk, hfb, hsl]
        obtain ⟨pn0, hpn0, hlp0, hct0, he0⟩ := substLoop_error_shape params _ _ _ _ _ hsl
        refine ⟨?_, ?_, ?_, ?_, ?_⟩
        · exact ⟨fun _ => Or.inr (Or.inr ⟨r0, hlk, pn0, hpn0, hlp0, hct0⟩),
            fun _ => ⟨_, hr⟩⟩
        · intro h
          cases hlk.symm.trans h
        · intro r k h1 h2
          cases hfb.symm.trans h2
        · intro r e h1 h2 h3
          have hre : r = r0 := by
            have := hlk.symm.trans h1
            injection this with h
            exact h.symm
          subst hre
          have hee : e0 = e := by
            have := hr.symm.trans h3
            injection this
          subst hee
          exact ⟨pn0, hpn0, hlp0, hct0, he0⟩
        · intro r url h1 h2 h3
          cases hr.symm.trans h3
      | ok p =>
        obtain ⟨url0, used0⟩ := p
        have hroute : route named name params =
            (if 0 < (queryEntries params used0).length
              then .ok (url0 ++ '?' :: queryString (queryEntries params used0))
              else .ok url0) := by
          simp [route, hlk, hfb, hsl]
        have hnoerr : ¬ ∃ e, route named name params = .error e := by
          rintro ⟨e, he⟩
          rw [hroute] at he
          split at he <;> cases he
        have hnobad : ¬ ∃ kv ∈ params.getD [], hasBadChar (pvalStr kv.2) = true := by
          intro hbad
          cases params with
          | none => simp at hbad
          | some ps =>
            obtain ⟨k, hk⟩ := (findBad_some_iff ps).mpr (by simpa using hbad)
            rw [show findBadOpt (some ps) = findBad ps from rfl, hk] at hfb
            cases hfb
        have hnomiss : ¬ ∃ r, lookupName named name = some r
            ∧ ∃ pn ∈ r.paramNames, lookupParam params pn = none
                ∧ (r.optionalParams.getD []).contains pn = false := by
          rintro ⟨r, h1, hereq⟩
          have hre : r = r0 := by
            have := hlk.symm.trans h1
            injection this with h
            exact h.symm
          subst hre
          obtain ⟨e, he⟩ := (substLoop_error_iff params _ _ r.path []).mpr hereq
          rw [hsl] at he
          cases he
        refine ⟨?_, ?_, ?_, ?_, ?_⟩
        · constructor
          · intro h
            exact absurd h hnoerr
          · rintro (h | h | h)
            · cases hlk.symm.trans h
            · exact absurd h hnobad
            · exact absurd h hnomiss
        · intro h
          cases hlk.symm.trans h
        · intro r k h1 h2
          cases hfb.symm.trans h2
        · intro r e h1 h2 h3
          exact absurd ⟨e, h3⟩ hnoerr
        · intro r url h1 h2 h3
          have hre : r = r0 := by
            have := hlk.symm.trans h1
            injection this with h
            exact h.symm
          subst hre
          have hclean0 : hasBadChar url0 = false :=
            substLoop_ok_clean params _ _ _ _ _ _ h2 hsl
          rw [hroute] at h3
          split at h3
          · cases h3
            rw [hasBadChar_append, hclean0, hasBadChar_cons, queryString_clean]
            decide
          · cases h3
            exact hclean0

/-- C8 witness: instantiation at the `users.show` route: a clean generation
succeeds, the missing-parameter and unknown-name failures surface as the
named errors, and an injection value is rejected. -/
theorem claim8_witness :
    route [(str "users.show", usersShowRoute)] (str "users.show") none
        = .error (.missingRequiredParam (str "id"))
    ∧ route [(str "users.show", usersShowRoute)] (str "nope") none = .error .routeNotFound
    ∧ route [(str "users.show", usersShowRoute)] (str "users.show")
        (some [(str "id", PVal.s (str "a\r\nb"))]) = .error (.invalidParamValue (str "id"))
    ∧ hasBadChar (str "/users/42") = false :=
  ⟨by
      have h := (claim8_route_generation [(str "users.show", usersShowRoute)]
        (str "users.show") none).2.2.2.1 usersShowRoute
      have h2 := h (.missingRequiredParam (str "id")) rfl rfl rfl
      rfl,
    (claim8_route_generation [(str "users.show", usersShowRoute)] (str "nope") none).2.1 rfl,
    by
      have h := (claim8_route_generation [(str "users.show", usersShowRoute)]
        (str "users.show") (some [(str "id", PVal.s (str "a\r\nb"))])).2.2.1
        usersShowRoute (str "id") rfl rfl
      exact h,
    (claim8_route_generation [(str "users.show", usersShowRoute)] (str "users.show")
        (some [(str "id", PVal.n 42)])).2.2.2.2 usersShowRoute (str "/users/42")
        rfl (by decide) rfl⟩

end Bunary
